import Mathlib

/-!
Shallow embedding of `src/scripts/generateMetrics.ts` — the metrics
aggregation and rendering pipeline of the README auto-updater — together
with proofs about its behaviour.

Conventions of the embedding:
* JavaScript numbers that only ever hold integer counts are `Nat`;
  quantities that may be fractional (seconds from the time-tracking API)
  are `ℚ` and arithmetic on them is exact.
* Timestamps are milliseconds since the Unix epoch (`Nat`), the value
  `new Date(occurredAt).getTime()` produces; `getUTCHours` and
  `getUTCDay` are embedded arithmetically (1970-01-01 was a Thursday).
* `'█'.repeat(n)` throws a RangeError for negative `n`, so the bar
  renderer is embedded as an `Option`-valued function, `none` standing
  for the thrown exception.
* The README text and the regex splice are embedded over `List Char`.
-/

namespace GenerateMetrics

/-- The filled bar glyph of `makeBar`. -/
def filledGlyph : Char := '█'

/-- The empty bar glyph of `makeBar`. -/
def emptyGlyph : Char := '░'

/-- JavaScript `Math.round x` is `⌊x + 1/2⌋`. -/
def jsRound (q : ℚ) : ℤ := Int.floor (q + 1 / 2)

/-- Embedding of `makeBar` (generateMetrics.ts lines 42–46).  When
`maxValue` is zero the bar is all empty glyphs; otherwise
`filled = Math.round(value / maxValue * width)` filled glyphs are
followed by `Math.max(0, width - filled)` empty glyphs.  A negative
`filled` would make `'█'.repeat(filled)` throw, embedded as `none`. -/
def makeBar (value maxValue : ℚ) (width : ℕ) : Option String :=
  if maxValue = 0 then some (String.mk (List.replicate width emptyGlyph))
  else
    let filled := jsRound (value / maxValue * width)
    if filled < 0 then none
    else some (String.mk (List.replicate filled.toNat filledGlyph ++
      List.replicate (width - filled.toNat) emptyGlyph))

/-- Embedding of `formatTimeMinutes` (lines 47–52) on non-negative
integer minute counts; `Math.floor` and `%` on non-negative integers are
`Nat` division and remainder, and `Math.round` of an integer is the
integer itself. -/
def formatTimeMinutes (mins : ℕ) : String :=
  let h := mins / 60
  let m := mins % 60
  if h > 0 then toString h ++ " hrs " ++ toString m ++ " mins"
  else toString m ++ " mins"

/-- The weekday-name table of `weekdayName` (line 53), indexed by
`getUTCDay` (0 = Sunday). -/
def weekdayNames : List String :=
  ["Sunday", "Monday", "Tuesday", "Wednesday", "Thursday", "Friday", "Saturday"]

/-- Embedding of `weekdayName` (line 53); indices outside 0..6 read an
absent array slot, embedded as the default `""`. -/
def weekdayName (i : ℕ) : String := weekdayNames.getD i ""

/-- Embedding of `toJST` (line 56): shift the epoch-millisecond value by
nine hours. -/
def toJST (t : ℕ) : ℕ := t + 9 * 60 * 60 * 1000

/-- `Date.getUTCHours` on an epoch-millisecond value. -/
def utcHours (t : ℕ) : ℕ := t / 3600000 % 24

/-- `Date.getUTCDay` on an epoch-millisecond value (0 = Sunday;
1970-01-01 was a Thursday, day index 4). -/
def utcDay (t : ℕ) : ℕ := (t / 86400000 + 4) % 7

/-- The time-of-day classifier of the aggregation loop (lines 179–184):
`Night` unless the hour falls in [6,12) (`Morning`), [12,18)
(`Daytime`) or [18,24) (`Evening`). -/
def timeBucket (hour : ℕ) : String :=
  if 6 ≤ hour ∧ hour < 12 then "Morning"
  else if 12 ≤ hour ∧ hour < 18 then "Daytime"
  else if 18 ≤ hour ∧ hour < 24 then "Evening"
  else "Night"

/-- A contribution node of the commit-history response: an occurrence
timestamp and an optional commit count (`commitCount?: number`, a
non-negative count when present). -/
structure CommitEvent where
  occurredAt : ℕ
  commitCount : Option ℕ
  deriving DecidableEq

/-- Embedding of `const cnt = node.commitCount || 1` (line 173): the
field when present and non-zero, else 1 (`0` and `undefined` are both
falsy). -/
def eventCount (e : CommitEvent) : ℕ :=
  match e.commitCount with
  | some n => if n = 0 then 1 else n
  | none => 1

/-- The mutable aggregation state of `main` (lines 166–168): the
`hourBuckets` record, the `weekdayCounts` record and `totalCommits`,
records embedded as total maps that are zero off the touched keys. -/
structure Agg where
  hourBuckets : String → ℕ
  weekdayCounts : String → ℕ
  totalCommits : ℕ

/-- The initial aggregation state: every bucket zero. -/
def Agg.init : Agg := ⟨fun _ => 0, fun _ => 0, 0⟩

/-- `rec[k] = (rec[k] || 0) + c` on a record embedded as a map. -/
def bump (f : String → ℕ) (k : String) (c : ℕ) : String → ℕ :=
  fun s => if s = k then f s + c else f s

/-- One iteration of the aggregation loop (lines 170–189): classify the
event's JST hour and weekday, then add its count to the matching hour
bucket, the matching weekday bucket and the running total. -/
def aggStep (a : Agg) (e : CommitEvent) : Agg :=
  let cnt := eventCount e
  let jst := toJST e.occurredAt
  let bucket := timeBucket (utcHours jst)
  let day := weekdayName (utcDay jst)
  ⟨bump a.hourBuckets bucket cnt, bump a.weekdayCounts day cnt,
    a.totalCommits + cnt⟩

/-- The whole aggregation loop over a list of contribution nodes. -/
def aggregate (events : List CommitEvent) : Agg :=
  events.foldl aggStep Agg.init

/-- The four hour-bucket keys, in the order the report lists them. -/
def hourKeys : List String := ["Morning", "Daytime", "Evening", "Night"]

/-- `wkOrder` (line 208): the canonical weekday order of the report. -/
def wkOrder : List String :=
  ["Monday", "Tuesday", "Wednesday", "Thursday", "Friday", "Saturday", "Sunday"]

/-- The most-productive-day fold (lines 217–225): starting from
`mostDay = 'N/A'` and `best = -1`, scan `wkOrder` and take any day whose
count strictly exceeds the best so far. -/
def mostProductiveDay (counts : String → ℕ) : String :=
  (wkOrder.foldl
    (fun (acc : String × ℤ) k =>
      if (counts k : ℤ) > acc.2 then (k, (counts k : ℤ)) else acc)
    ("N/A", -1)).1

/-- The percentage computation used for every bucket line (lines 202,
212, 237, 246): `total ? cnt / total * 100 : 0`. -/
def pctOf (cnt total : ℕ) : ℚ :=
  if total = 0 then 0 else (cnt : ℚ) / (total : ℚ) * 100

/-- A language or editor usage entry (name, total seconds). -/
structure UsageEntry where
  name : String
  seconds : ℚ
  deriving DecidableEq

/-- A rendered chart line's label and percentage. -/
structure RenderRow where
  label : String
  pct : ℚ
  deriving DecidableEq

/-- `(waka.data?.languages || []).slice(0, 5)` (line 230): the first
five entries in upstream order. -/
def topFive (entries : List UsageEntry) : List UsageEntry := entries.take 5

/-- `totalSeconds = languages.reduce((s, l) => s + l.seconds, 0) || 0`
(line 232): the seconds of the already-truncated list, summed. -/
def usageTotal (entries : List UsageEntry) : ℚ :=
  ((topFive entries).map UsageEntry.seconds).sum

/-- `pct = totalSeconds ? (l.seconds / totalSeconds) * 100 : 0`
(line 237), against the truncated total. -/
def usagePct (entries : List UsageEntry) (e : UsageEntry) : ℚ :=
  if usageTotal entries = 0 then 0 else e.seconds / usageTotal entries * 100

/-- The per-entry mapping of lines 235–240, kept to the fields the
claims are about: each retained entry yields one row carrying its name
and its percentage of the truncated total. -/
def usageRows (entries : List UsageEntry) : List RenderRow :=
  (topFive entries).map (fun e => ⟨e.name, usagePct entries e⟩)

/-- The literal start marker of the replaceable README region. -/
def startMarker : List Char := "<!--START_SECTION:waka-->".data

/-- The literal end marker of the replaceable README region. -/
def endMarker : List Char := "<!--END_SECTION:waka-->".data

/-- Split a text at the first occurrence of `pat`: returns the part
before the match and the part after it, or `none` when `pat` does not
occur.  This is the leftmost-match search a regex performs for a literal
pattern. -/
def splitFirst (pat : List Char) : List Char → Option (List Char × List Char)
  | [] => none
  | c :: cs =>
    if pat.isPrefixOf (c :: cs) then some ([], (c :: cs).drop pat.length)
    else
      match splitFirst pat cs with
      | some (b, a) => some (c :: b, a)
      | none => none

/-- The backquote character (code 96), the second character of the
replacement escape that expands to the text preceding the match. -/
def backquoteChar : Char := Char.ofNat 96

/-- The single-quote character (code 39), the second character of the
replacement escape that expands to the text following the match. -/
def quoteChar : Char := Char.ofNat 39

/-- ECMAScript `GetSubstitution` for a regex with no capture groups:
the replacement string is scanned left to right and `$$`, `$&`,
dollar-backquote and dollar-quote expand to a dollar sign, the matched
text, the text before the match and the text after the match; any
other `$` (including `$n` with no capture groups and `$<` with no
named groups) is literal. -/
def getSubstitution (matched before after : List Char) :
    List Char → List Char
  | [] => []
  | c :: rest =>
    if c = '$' then
      match rest with
      | [] => [c]
      | d :: rest2 =>
        if d = '$' then d :: getSubstitution matched before after rest2
        else if d = '&' then
          matched ++ getSubstitution matched before after rest2
        else if d = backquoteChar then
          before ++ getSubstitution matched before after rest2
        else if d = quoteChar then
          after ++ getSubstitution matched before after rest2
        else c :: d :: getSubstitution matched before after rest2
    else c :: getSubstitution matched before after rest

/-- Whether a replacement string contains a `$`-escape that
`GetSubstitution` would expand (`$$`, `$&`, dollar-backquote or
dollar-quote); when it does not, substitution inserts it literally. -/
def hasSubstEscape : List Char → Bool
  | [] => false
  | c :: rest =>
    if c = '$' then
      match rest with
      | [] => false
      | d :: rest2 =>
        if d = '$' ∨ d = '&' ∨ d = backquoteChar ∨ d = quoteChar then true
        else hasSubstEscape rest2
    else hasSubstEscape rest

/-- The replacement string of line 284 before substitution:
`START + '\n' + finalBlock + '\n' + END` (the template literal is
interpolated first, then handed to `String.replace`). -/
def replaceTemplate (block : List Char) : List Char :=
  startMarker ++ '\n' :: block ++ '\n' :: endMarker

/-- Embedding of the README splice (line 284):
`md.replace(/START[\s\S]*?END/, START + '\n' + finalBlock + '\n' + END)`.
The regex matches from the leftmost start marker through the first end
marker after it (the quantifier is lazy); the matched region is
replaced by the replacement string after `GetSubstitution` expands its
`$`-escapes against the match; with no match the text is returned
unchanged. -/
def spliceWaka (doc block : List Char) : List Char :=
  match splitFirst startMarker doc with
  | none => doc
  | some (p, rest) =>
    match splitFirst endMarker rest with
    | none => doc
    | some (mid, s) =>
      p ++ getSubstitution (startMarker ++ mid ++ endMarker) p s
        (replaceTemplate block) ++ s

/-- Whether the document contains a start marker with an end marker
somewhere after it — exactly when the splice regex matches. -/
def hasWakaRegion (doc : List Char) : Bool :=
  match splitFirst startMarker doc with
  | none => false
  | some (_, rest) => (splitFirst endMarker rest).isSome

/-- The run's report (lines 285–290): `README updated` when the splice
changed the text, else `No changes`. -/
def spliceReport (doc block : List Char) : String :=
  if spliceWaka doc block = doc then "No changes" else "README updated"

/-- The consistency invariant of the aggregation state: the hour
buckets and the weekday buckets each sum to the running total. -/
def bucketSumsOk (a : Agg) : Prop :=
  (hourKeys.map a.hourBuckets).sum = a.totalCommits ∧
  (wkOrder.map a.weekdayCounts).sum = a.totalCommits

/-- A sample six-entry usage list (one more than the cut-off). -/
def sampleEntries : List UsageEntry :=
  [⟨"TypeScript", 600⟩, ⟨"Lean", 300⟩, ⟨"Python", 60⟩,
   ⟨"Rust", 30⟩, ⟨"Go", 6⟩, ⟨"C", 4⟩]

theorem splitFirst_self (pat a : List Char) (hp : pat ≠ []) :
    splitFirst pat (pat ++ a) = some ([], a) := by
  cases pat with
  | nil => exact absurd rfl hp
  | cons pc pcs =>
    rw [List.cons_append, splitFirst]
    have hpre : (pc :: pcs).isPrefixOf (pc :: (pcs ++ a)) = true := by
      rw [ List.isPrefixOf_iff_prefix]
      exact ⟨a, by simp⟩
    rw [if_pos hpre, ← List.cons_append, List.drop_left]

theorem splitFirst_spec (pat : List Char) (hp : pat ≠ []) :
    ∀ s b a : List Char, splitFirst pat s = some (b, a) →
      s = b ++ pat ++ a ∧ splitFirst pat (b ++ pat) = some (b, []) := by
  intro s
  induction s with
  | nil => intro b a h; simp [splitFirst] at h
  | cons c cs ih =>
    intro b a h
    rw [splitFirst] at h
    by_cases hpre : pat.isPrefixOf (c :: cs) = true
    · rw [if_pos hpre] at h
      simp only [Option.some.injEq, Prod.mk.injEq] at h
      obtain ⟨hb, ha⟩ := h
      obtain ⟨t, ht⟩ := List.isPrefixOf_iff_prefix.mp hpre
      subst hb
      have hdrop : (c :: cs).drop pat.length = t := by
        rw [← ht, List.drop_left]
      constructor
      · rw [← ha, hdrop, List.nil_append, ht]
      · rw [List.nil_append]
        have h0 := splitFirst_self pat [] hp
        rwa [List.append_nil] at h0
    · rw [if_neg hpre] at h
      cases hsp : splitFirst pat cs with
      | none => rw [hsp] at h; simp at h
      | some ba =>
        obtain ⟨bb, aa⟩ := ba
        rw [hsp] at h
        simp only [Option.some.injEq, Prod.mk.injEq] at h
        obtain ⟨hb, ha⟩ := h
        obtain ⟨hcs, hcanon⟩ := ih bb aa hsp
        subst hb
        subst ha
        constructor
        · simp [hcs]
        · rw [List.cons_append, splitFirst]
          have hpre2 : ¬pat.isPrefixOf (c :: (bb ++ pat)) = true := by
            intro hcon
            apply hpre
            rw [ List.isPrefixOf_iff_prefix] at hcon ⊢
            have h1 : c :: (bb ++ pat) <+: c :: cs := ⟨aa, by simp [hcs]⟩
            exact hcon.trans h1
          rw [if_neg hpre2, hcanon]

theorem splitFirst_extend (pat b a : List Char) (hp : pat ≠ [])
    (h : splitFirst pat (b ++ pat) = some (b, [])) :
    splitFirst pat (b ++ pat ++ a) = some (b, a) := by
  induction b with
  | nil =>
    rw [List.nil_append]
    exact splitFirst_self pat a hp
  | cons c b ih =>
    rw [List.cons_append] at h
    rw [splitFirst] at h
    simp only [List.cons_append]
    rw [splitFirst]
    by_cases hpre : pat.isPrefixOf (c :: (b ++ pat)) = true
    · rw [if_pos hpre] at h
      simp only [Option.some.injEq, Prod.mk.injEq] at h
      exact absurd h.1 (by simp)
    · rw [if_neg hpre] at h
      have hpre2 : ¬pat.isPrefixOf (c :: (b ++ pat ++ a)) = true := by
        intro hcon
        apply hpre
        rw [ List.isPrefixOf_iff_prefix] at hcon ⊢
        have hlen : pat.length ≤ (c :: (b ++ pat)).length := by
          simp [List.length_cons, List.length_append]
          omega
        have h2 : c :: (b ++ pat) <+: c :: (b ++ pat ++ a) := ⟨a, by simp⟩
        exact List.prefix_of_prefix_length_le hcon h2 hlen
      rw [if_neg hpre2]
      cases hsp : splitFirst pat (b ++ pat) with
      | none => rw [hsp] at h; simp at h
      | some ba =>
        obtain ⟨bb, aa⟩ := ba
        rw [hsp] at h
        simp only [Option.some.injEq, Prod.mk.injEq, List.cons.injEq] at h
        obtain ⟨⟨_, hb⟩, ha⟩ := h
        subst hb
        subst ha
        rw [ih hsp]

theorem getSubstitution_literal (m b a : List Char) :
    ∀ t, hasSubstEscape t = false → getSubstitution m b a t = t
  | [], _ => rfl
  | [c], _ => by
    by_cases hc : c = '$' <;> simp [getSubstitution, hc]
  | c :: d :: rest2, h => by
    by_cases hc : c = '$'
    · by_cases hd : d = '$' ∨ d = '&' ∨ d = backquoteChar ∨ d = quoteChar
      · exfalso
        have hT : hasSubstEscape (c :: d :: rest2) = true := by
          simp only [hasSubstEscape]
          rw [if_pos hc, if_pos hd]
        rw [hT] at h
        exact absurd h (by simp)
      · have h2 : hasSubstEscape rest2 = false := by
          simp only [hasSubstEscape] at h
          rwa [if_pos hc, if_neg hd] at h
        push_neg at hd
        obtain ⟨hd1, hd2, hd3, hd4⟩ := hd
        simp only [getSubstitution]
        rw [if_pos hc, if_neg hd1, if_neg hd2, if_neg hd3, if_neg hd4,
          getSubstitution_literal m b a rest2 h2]
    · have h2 : hasSubstEscape (d :: rest2) = false := by
        simp only [hasSubstEscape] at h
        rwa [if_neg hc] at h
      simp only [getSubstitution]
      rw [if_neg hc, getSubstitution_literal m b a (d :: rest2) h2]

theorem sum_map_bump (l : List String) (f : String → ℕ) (k : String) (c : ℕ)
    (hk : k ∈ l) (hnd : l.Nodup) :
    (l.map (bump f k c)).sum = (l.map f).sum + c := by
  induction l with
  | nil => cases hk
  | cons x xs ih =>
    rcases List.mem_cons.mp hk with rfl | hk'
    · have hxk : k ∉ xs := (List.nodup_cons.mp hnd).1
      have hmap : xs.map (bump f k c) = xs.map f := by
        refine List.map_congr_left ?_
        intro s hs
        have hsx : ¬s = k := fun hsx => hxk (hsx ▸ hs)
        simp [bump, hsx]
      rw [List.map_cons, List.map_cons, List.sum_cons, List.sum_cons, hmap]
      have hbk : bump f k c k = f k + c := by simp [bump]
      rw [hbk]
      omega
    · have hxk : x ∉ xs := (List.nodup_cons.mp hnd).1
      have hxne : ¬x = k := fun hxe => hxk (hxe ▸ hk')
      have hrec := ih hk' (List.nodup_cons.mp hnd).2
      rw [List.map_cons, List.map_cons, List.sum_cons, List.sum_cons, hrec]
      have hbx : bump f k c x = f x := by simp [bump, hxne]
      rw [hbx]
      omega

theorem timeBucket_mem_hourKeys (h : ℕ) : timeBucket h ∈ hourKeys := by
  unfold timeBucket hourKeys
  split
  · simp
  · split
    · simp
    · split
      · simp
      · simp

theorem weekdayName_mem_wkOrder : ∀ i, i < 7 → weekdayName i ∈ wkOrder := by
  decide

theorem aggStep_preserves (a : Agg) (e : CommitEvent)
    (h : bucketSumsOk a) : bucketSumsOk (aggStep a e) := by
  obtain ⟨h1, h2⟩ := h
  constructor
  · show (hourKeys.map (bump a.hourBuckets _ _)).sum = _
    rw [sum_map_bump _ _ _ _ (timeBucket_mem_hourKeys _) (by decide), h1]
    rfl
  · show (wkOrder.map (bump a.weekdayCounts _ _)).sum = _
    have hd : utcDay (toJST e.occurredAt) < 7 := Nat.mod_lt _ (by norm_num)
    rw [sum_map_bump _ _ _ _ (weekdayName_mem_wkOrder _ hd) (by decide), h2]
    rfl

theorem aggregate_invariant (events : List CommitEvent) :
    ∀ a, bucketSumsOk a → bucketSumsOk (events.foldl aggStep a) := by
  induction events with
  | nil => intro a h; exact h
  | cons e es ih => intro a h; exact ih _ (aggStep_preserves a e h)

theorem sum_map_natCast_mul (l : List ℕ) (r : ℚ) :
    (l.map (fun c : ℕ => (c : ℚ) * r)).sum = (l.sum : ℚ) * r := by
  induction l with
  | nil => simp
  | cons x xs ih =>
    rw [List.map_cons, List.sum_cons, ih, List.sum_cons, Nat.cast_add, add_mul]

/-- Claim C1 (code bug evaluation): the most-productive-day fold does
honour strict greatness with ties broken by first occurrence in
Monday..Sunday order — the spec's example table yields "Tuesday" — but
on an all-zero table it returns "Monday", not the sentinel "N/A": the
initial best of -1 is beaten by Monday's count of 0, so the 'N/A'
initialiser is unreachable. -/
theorem mostProductiveDay_zero_counts :
    mostProductiveDay (fun _ => 0) = "Monday" ∧
    mostProductiveDay (fun k =>
      if k = "Monday" then 3 else if k = "Tuesday" then 5 else
      if k = "Wednesday" then 5 else 0) = "Tuesday" :=
  ⟨by decide, by decide⟩

/-- Claim C2: for every hour 0..23 the classifier returns "Morning"
exactly on [6,12), "Daytime" exactly on [12,18), "Evening" exactly on
[18,24), "Night" exactly on the remaining hours, and always one of the
four — the buckets partition the 24-hour range with no gap or
overlap. -/
theorem timeBucket_partition : ∀ h, h < 24 →
    (timeBucket h = "Morning" ↔ 6 ≤ h ∧ h < 12) ∧
    (timeBucket h = "Daytime" ↔ 12 ≤ h ∧ h < 18) ∧
    (timeBucket h = "Evening" ↔ 18 ≤ h ∧ h < 24) ∧
    (timeBucket h = "Night" ↔ h < 6) ∧
    (timeBucket h = "Morning" ∨ timeBucket h = "Daytime" ∨
      timeBucket h = "Evening" ∨ timeBucket h = "Night") := by
  decide

/-- Witness for C2 at hour 7. -/
theorem timeBucket_partition_witness :
    (timeBucket 7 = "Morning" ↔ 6 ≤ 7 ∧ 7 < 12) ∧
    (timeBucket 7 = "Daytime" ↔ 12 ≤ 7 ∧ 7 < 18) ∧
    (timeBucket 7 = "Evening" ↔ 18 ≤ 7 ∧ 7 < 24) ∧
    (timeBucket 7 = "Night" ↔ 7 < 6) ∧
    (timeBucket 7 = "Morning" ∨ timeBucket 7 = "Daytime" ∨
      timeBucket 7 = "Evening" ∨ timeBucket 7 = "Night") :=
  timeBucket_partition 7 (by decide)

/-- Claim C5: one aggregation step adds exactly `eventCount e` to the
event's hour bucket, to its weekday bucket and to the total;
`eventCount` is the `commitCount` field when present and non-zero,
is 1 when the field is absent or zero, and is always positive. -/
theorem aggStep_eventCount_spec (a : Agg) (e : CommitEvent) :
    (aggStep a e).totalCommits = a.totalCommits + eventCount e ∧
    (aggStep a e).hourBuckets (timeBucket (utcHours (toJST e.occurredAt))) =
      a.hourBuckets (timeBucket (utcHours (toJST e.occurredAt))) + eventCount e ∧
    (aggStep a e).weekdayCounts (weekdayName (utcDay (toJST e.occurredAt))) =
      a.weekdayCounts (weekdayName (utcDay (toJST e.occurredAt))) + eventCount e ∧
    0 < eventCount e ∧
    (e.commitCount = none → eventCount e = 1) ∧
    (e.commitCount = some 0 → eventCount e = 1) ∧
    (∀ n, e.commitCount = some n → n ≠ 0 → eventCount e = n) := by
  refine ⟨rfl, ?_, ?_, ?_, ?_, ?_, ?_⟩
  · simp [aggStep, bump]
  · simp [aggStep, bump]
  · unfold eventCount
    cases e.commitCount with
    | none => simp
    | some n =>
      by_cases hn : n = 0
      · simp [hn]
      · simp [hn]
        omega
  · intro h
    simp [eventCount, h]
  · intro h
    simp [eventCount, h]
  · intro n h hn
    simp [eventCount, h, hn]

/-- Witness for C5: a zero count field yields 1, a count of 3 is kept. -/
theorem aggStep_eventCount_spec_witness :
    eventCount ⟨0, some 0⟩ = 1 ∧ eventCount ⟨0, some 3⟩ = 3 :=
  ⟨(aggStep_eventCount_spec Agg.init ⟨0, some 0⟩).2.2.2.2.2.1 rfl,
   (aggStep_eventCount_spec Agg.init ⟨0, some 3⟩).2.2.2.2.2.2 3 rfl (by decide)⟩

/-- Claim C10: after aggregating any list of commit events, the four
hour-bucket counts sum to the running total and the seven
weekday-bucket counts sum to that same total. -/
theorem aggregate_totals_consistent (events : List CommitEvent) :
    (hourKeys.map (aggregate events).hourBuckets).sum =
      (aggregate events).totalCommits ∧
    (wkOrder.map (aggregate events).weekdayCounts).sum =
      (aggregate events).totalCommits :=
  aggregate_invariant events Agg.init ⟨rfl, rfl⟩

/-- Claim C3 counterexample: at value −24, max 1 (so value ≤ max) and
width 24 the fill rounds to −576 and `'█'.repeat(-576)` throws a
RangeError — no bar is produced at all — so the claim's length
invariant, quantified over every value ≤ max, fails at this input. -/
theorem makeBar_neg_value_throws :
    makeBar (-24) 1 24 = none ∧ ((-24 : ℚ) ≤ 1) := by
  constructor
  · have hm : (1 : ℚ) ≠ 0 := one_ne_zero
    have hx : ((-24 : ℚ) / 1 * ((24 : ℕ) : ℚ) + 1 / 2) < 0 := by norm_num
    have hfilled : jsRound ((-24 : ℚ) / 1 * ((24 : ℕ) : ℚ)) < 0 := by
      unfold jsRound
      have hle := Int.floor_le ((-24 : ℚ) / 1 * ((24 : ℕ) : ℚ) + 1 / 2)
      have : ((Int.floor ((-24 : ℚ) / 1 * ((24 : ℕ) : ℚ) + 1 / 2) : ℤ) : ℚ) < 0 :=
        lt_of_le_of_lt hle hx
      exact_mod_cast this
    rw [makeBar, if_neg hm, if_pos hfilled]
  · norm_num

/-- Claim C3 (amended): with a zero maximum the bar is `width` empty
glyphs; with a non-zero maximum and a non-negative rounded fill it is
`round(value/max * width)` filled glyphs followed by `width - filled`
empty glyphs; and for every `0 ≤ value ≤ max` the bar exists and its
total length is exactly `width`. -/
theorem makeBar_spec (v m : ℚ) (w : ℕ) :
    (m = 0 → makeBar v m w = some (String.mk (List.replicate w emptyGlyph))) ∧
    (m ≠ 0 → 0 ≤ jsRound (v / m * w) →
      makeBar v m w = some (String.mk
        (List.replicate (jsRound (v / m * w)).toNat filledGlyph ++
         List.replicate (w - (jsRound (v / m * w)).toNat) emptyGlyph))) ∧
    (0 ≤ v → v ≤ m → ∃ s, makeBar v m w = some s ∧ s.length = w) := by
  refine ⟨?_, ?_, ?_⟩
  · intro h
    simp [makeBar, h]
  · intro hm hf
    rw [makeBar, if_neg hm, if_neg (not_lt.mpr hf)]
  · intro hv hvm
    by_cases hm : m = 0
    · refine ⟨String.mk (List.replicate w emptyGlyph), by simp [makeBar, hm], ?_⟩
      simp [String.length]
    · have hm0 : 0 < m := lt_of_le_of_ne (hv.trans hvm) (Ne.symm hm)
      have hx0 : 0 ≤ v / m * w :=
        mul_nonneg (div_nonneg hv hm0.le) (by positivity)
      have hf0 : 0 ≤ jsRound (v / m * w) := by
        unfold jsRound
        exact Int.floor_nonneg.mpr (by linarith)
      have hxw : v / m * w ≤ (w : ℚ) := by
        have h1 : v / m ≤ 1 := (div_le_one hm0).mpr hvm
        calc v / m * w ≤ 1 * w :=
              mul_le_mul_of_nonneg_right h1 (by positivity)
          _ = (w : ℚ) := one_mul _
      have hfw : jsRound (v / m * w) ≤ (w : ℤ) := by
        unfold jsRound
        have h2 : Int.floor (v / m * w + 1 / 2) ≤
            Int.floor ((w : ℚ) + 1 / 2) :=
          Int.floor_le_floor (by linarith)
        have h3 : Int.floor (((w : ℤ) : ℚ) + 1 / 2) = (w : ℤ) + 0 := by
          rw [Int.floor_int_add]
          congr 1
          rw [Int.floor_eq_zero_iff]
          constructor <;> norm_num
        rw [Int.cast_natCast] at h3
        omega
      refine ⟨String.mk
        (List.replicate (jsRound (v / m * w)).toNat filledGlyph ++
         List.replicate (w - (jsRound (v / m * w)).toNat) emptyGlyph), ?_, ?_⟩
      · rw [makeBar, if_neg hm, if_neg (not_lt.mpr hf0)]
      · show (String.mk _).length = w
        simp [String.length]
        omega

/-- Witness for C3: value 5 of maximum 10 across width 24 yields a
24-character bar. -/
theorem makeBar_spec_witness :
    ∃ s, makeBar 5 10 24 = some s ∧ s.length = 24 :=
  (makeBar_spec 5 10 24).2.2 (by norm_num) (by norm_num)

/-- Claim C4: with the code's guarded formula, a zero group total makes
every bucket's percentage 0 with no division fault, a non-zero total
makes each percentage count/total × 100, and over exact rational
arithmetic the percentages of a group with positive total sum to
exactly 100. -/
theorem pctOf_group_spec (counts : List ℕ) :
    (counts.sum = 0 → ∀ c ∈ counts, pctOf c counts.sum = 0) ∧
    (counts.sum ≠ 0 → ∀ c ∈ counts,
      pctOf c counts.sum = (c : ℚ) / (counts.sum : ℚ) * 100) ∧
    (counts.sum ≠ 0 →
      (counts.map (fun c : ℕ => pctOf c counts.sum)).sum = 100) := by
  refine ⟨?_, ?_, ?_⟩
  · intro h c _
    simp [pctOf, h]
  · intro h c _
    simp [pctOf, h]
  · intro h
    have hT : ((counts.sum : ℕ) : ℚ) ≠ 0 := Nat.cast_ne_zero.mpr h
    have h1 : (counts.map (fun c : ℕ => pctOf c counts.sum)).sum =
        (counts.map (fun c : ℕ =>
          (c : ℚ) * (100 / (counts.sum : ℚ)))).sum := by
      refine congrArg List.sum (List.map_congr_left ?_)
      intro c _
      simp only [pctOf, if_neg h]
      ring
    rw [h1, sum_map_natCast_mul, ← mul_div_assoc, mul_comm, mul_div_assoc,
      div_self hT, mul_one]

/-- Witness for C4: the group [1, 3] has total 4 and its percentages
sum to 100. -/
theorem pctOf_group_spec_witness :
    (([1, 3] : List ℕ).map
      (fun c : ℕ => pctOf c ([1, 3] : List ℕ).sum)).sum = 100 :=
  (pctOf_group_spec [1, 3]).2.2 (by decide)

/-- Claim C6: the duration formatter renders "<H> hrs <M> mins" when
the whole-hour part is positive and "<M> mins" otherwise, and the four
example durations render as the spec states. -/
theorem formatTimeMinutes_spec : ∀ mins : ℕ,
    (0 < mins / 60 →
      formatTimeMinutes mins =
        toString (mins / 60) ++ " hrs " ++ toString (mins % 60) ++ " mins") ∧
    (mins / 60 = 0 →
      formatTimeMinutes mins = toString (mins % 60) ++ " mins") ∧
    formatTimeMinutes 0 = "0 mins" ∧
    formatTimeMinutes 59 = "59 mins" ∧
    formatTimeMinutes 60 = "1 hrs 0 mins" ∧
    formatTimeMinutes 125 = "2 hrs 5 mins" := by
  intro mins
  refine ⟨?_, ?_, rfl, rfl, rfl, rfl⟩
  · intro h
    simp [formatTimeMinutes, h]
  · intro h
    simp [formatTimeMinutes, h]

/-- Witness for C6 at 125 minutes. -/
theorem formatTimeMinutes_spec_witness :
    formatTimeMinutes 125 =
      toString (125 / 60) ++ " hrs " ++ toString (125 % 60) ++ " mins" :=
  (formatTimeMinutes_spec 125).1 (by decide)

/-- Claim C9: the usage pipeline keeps the first five entries in
upstream order (its labels are the first five names, unsorted), yields
at most five rows, and computes every retained entry's percentage
against the sum of seconds of the truncated five-entry list. -/
theorem usageRows_spec (entries : List UsageEntry) :
    (usageRows entries).map RenderRow.label =
      (entries.map UsageEntry.name).take 5 ∧
    (usageRows entries).length = min 5 entries.length ∧
    (∀ e ∈ topFive entries,
      usagePct entries e =
        if ((entries.take 5).map UsageEntry.seconds).sum = 0 then 0
        else e.seconds / ((entries.take 5).map UsageEntry.seconds).sum * 100) := by
  refine ⟨?_, ?_, ?_⟩
  · rw [usageRows, List.map_map, topFive, ← List.map_take]
    exact List.map_congr_left (fun e _ => rfl)
  · simp [usageRows, topFive, List.length_take]
  · intro e _
    rfl

/-- Witness for C9: the first of six sample entries is retained and its
percentage is taken against the truncated total. -/
theorem usageRows_spec_witness :
    usagePct sampleEntries ⟨"TypeScript", 600⟩ =
      if ((sampleEntries.take 5).map UsageEntry.seconds).sum = 0 then 0
      else UsageEntry.seconds ⟨"TypeScript", 600⟩ /
        ((sampleEntries.take 5).map UsageEntry.seconds).sum * 100 :=
  (usageRows_spec sampleEntries).2.2 ⟨"TypeScript", 600⟩ (by decide)

/-- Claim C7 (amended): when the document has a start marker followed
by an end marker, the splice keeps every byte before the first start
marker and after the first subsequent end marker unchanged and writes
between them the replacement string — the markers wrapping the block
with one newline on each side — expanded by `GetSubstitution`; when
that string triggers no `$`-escape it is inserted literally, so the
span between the markers is the block surrounded by one newline on
each side; when no region exists the document is untouched and the
run reports "No changes". -/
theorem spliceWaka_region_spec (doc block : List Char) :
    (hasWakaRegion doc = true →
      ∃ p mid s, doc = p ++ startMarker ++ mid ++ endMarker ++ s ∧
        splitFirst startMarker (p ++ startMarker) = some (p, []) ∧
        splitFirst endMarker (mid ++ endMarker) = some (mid, []) ∧
        spliceWaka doc block =
          p ++ getSubstitution (startMarker ++ mid ++ endMarker) p s
            (replaceTemplate block) ++ s ∧
        (hasSubstEscape (replaceTemplate block) = false →
          spliceWaka doc block =
            p ++ startMarker ++ '\n' :: block ++ '\n' :: endMarker ++ s)) ∧
    (hasWakaRegion doc = false →
      spliceWaka doc block = doc ∧ spliceReport doc block = "No changes") := by
  have hS : startMarker ≠ [] := by decide
  have hE : endMarker ≠ [] := by decide
  cases h1 : splitFirst startMarker doc with
  | none =>
    constructor
    · intro hT
      simp [hasWakaRegion, h1] at hT
    · intro _
      have he : spliceWaka doc block = doc := by simp [spliceWaka, h1]
      exact ⟨he, by rw [spliceReport, if_pos he]⟩
  | some pr =>
    obtain ⟨p, rest⟩ := pr
    cases h2 : splitFirst endMarker rest with
    | none =>
      constructor
      · intro hT
        simp [hasWakaRegion, h1, h2] at hT
      · intro _
        have he : spliceWaka doc block = doc := by simp [spliceWaka, h1, h2]
        exact ⟨he, by rw [spliceReport, if_pos he]⟩
    | some ms =>
      obtain ⟨mid, s⟩ := ms
      obtain ⟨hdoc1, hcanp⟩ := splitFirst_spec startMarker hS doc p rest h1
      obtain ⟨hrest, hcanm⟩ := splitFirst_spec endMarker hE rest mid s h2
      constructor
      · intro _
        refine ⟨p, mid, s, ?_, hcanp, hcanm, ?_, ?_⟩
        · rw [hdoc1, hrest]
          simp [List.append_assoc]
        · simp [spliceWaka, h1, h2]
        · intro hlit
          have hT := getSubstitution_literal
            (startMarker ++ mid ++ endMarker) p s (replaceTemplate block) hlit
          simp only [spliceWaka, h1, h2]
          rw [hT]
          simp [replaceTemplate, List.append_assoc]
      · intro hF
        simp [hasWakaRegion, h1, h2] at hF

/-- Witness for C7: a document with no marked region is untouched and
the run reports "No changes". -/
theorem spliceWaka_region_spec_witness :
    spliceWaka "abc".data "new".data = "abc".data ∧
    spliceReport "abc".data "new".data = "No changes" :=
  (spliceWaka_region_spec "abc".data "new".data).2 (by decide)

/-- Claim C7 counterexample: splicing the block "new" into the document
consisting of the markers around "old" does not make the span between
the markers equal the block itself — the splice writes a newline on
each side of the block, so the claim as stated fails on this input. -/
theorem spliceWaka_span_ne_block :
    spliceWaka (startMarker ++ "old".data ++ endMarker) "new".data ≠
      startMarker ++ "new".data ++ endMarker ∧
    spliceWaka (startMarker ++ "old".data ++ endMarker) "new".data =
      startMarker ++ ('\n' :: "new".data ++ '\n' :: endMarker) :=
  ⟨by decide, by decide⟩

/-- Claim C8 (amended): the splice is idempotent for every document
provided the replacement string built from the block triggers no
`$`-substitution escape and the end marker does not occur inside the
newline-wrapped block before its closing position (the first end
marker of the wrapped block followed by the end marker is the final
one) — both true of the blocks the renderer produces in normal
operation. -/
theorem spliceWaka_idempotent (doc block : List Char)
    (hlit : hasSubstEscape (replaceTemplate block) = false)
    (hb : splitFirst endMarker (('\n' :: block ++ ['\n']) ++ endMarker) =
        some ('\n' :: block ++ ['\n'], [])) :
    spliceWaka (spliceWaka doc block) block = spliceWaka doc block := by
  have hS : startMarker ≠ [] := by decide
  have hE : endMarker ≠ [] := by decide
  cases h1 : splitFirst startMarker doc with
  | none => simp [spliceWaka, h1]
  | some pr =>
    obtain ⟨p, rest⟩ := pr
    cases h2 : splitFirst endMarker rest with
    | none => simp [spliceWaka, h1, h2]
    | some ms =>
      obtain ⟨mid, s⟩ := ms
      obtain ⟨hdoc1, hcanp⟩ := splitFirst_spec startMarker hS doc p rest h1
      have hT1 := getSubstitution_literal
        (startMarker ++ mid ++ endMarker) p s (replaceTemplate block) hlit
      have hout : spliceWaka doc block =
          p ++ startMarker ++
            (('\n' :: block ++ ['\n']) ++ (endMarker ++ s)) := by
        simp only [spliceWaka, h1, h2]
        rw [hT1]
        simp [replaceTemplate, List.append_assoc]
      have hsp1 := splitFirst_extend startMarker p
        (('\n' :: block ++ ['\n']) ++ (endMarker ++ s)) hS hcanp
      have hsp2 := splitFirst_extend endMarker ('\n' :: block ++ ['\n']) s hE hb
      rw [List.append_assoc] at hsp2
      have hT2 := getSubstitution_literal
        (startMarker ++ ('\n' :: block ++ ['\n']) ++ endMarker) p s
        (replaceTemplate block) hlit
      rw [hout]
      simp only [spliceWaka, hsp1, hsp2]
      rw [hT2]
      simp [replaceTemplate, List.append_assoc]

/-- Witness for C8: splicing the block "ok" twice into a marked
document equals splicing it once. -/
theorem spliceWaka_idempotent_witness :
    spliceWaka
        (spliceWaka (startMarker ++ "x".data ++ endMarker) "ok".data)
        "ok".data =
      spliceWaka (startMarker ++ "x".data ++ endMarker) "ok".data :=
  spliceWaka_idempotent (startMarker ++ "x".data ++ endMarker) "ok".data
    (by decide) (by decide)

/-- Claim C8 counterexample: with a block that itself contains the end
marker, splicing twice differs from splicing once — the second run
finds an earlier end marker inside the previously inserted block, so
idempotence fails for that fixed block. -/
theorem spliceWaka_not_idempotent_marker_block :
    spliceWaka (spliceWaka (startMarker ++ endMarker) endMarker) endMarker ≠
      spliceWaka (startMarker ++ endMarker) endMarker := by
  decide

end GenerateMetrics
